import Mathlib

/-!
Verification of the juggler broker contract and CLI client.

The Go sources under verification are:
- the broker package (interface declarations and the package-level
  `DefaultCallTimeout` variable);
- the CLI client command dispatcher (`cmd/juggler-client/cmd.go`).

The redis broker adapter and the server connection engine are not part of
the sources at hand; where a property depends on them, the behaviour is
modelled from the specification (sections 4.B, 4.C, 4.D, 5 and 8), and the
definition in question carries a doc comment starting with
"Modelled from the spec:".
-/

namespace Juggler

/-! ## Definitions -/

/-! ### Default call timeout (broker package, part_000)

The Go source declares `var DefaultCallTimeout = time.Minute` at package
level.  Durations are modelled in nanoseconds, as Go `time.Duration` counts
nanoseconds; `time.Minute` is 60e9 ns. -/

/-- The initial value of the broker package variable `DefaultCallTimeout`
(`time.Minute`, in nanoseconds). -/
def DefaultCallTimeout : Nat := 60000000000

/-- One millisecond in nanoseconds. -/
def oneMillisecond : Nat := 1000000

/-- Modelled from the spec: the broker adapter (not under the sources at
hand) applies the per-call timeout, "falling back to a configured default"
when the submitted timeout is zero (spec 4.C and 8, "Timeout = 0 → adapter
substitutes the configured default"). -/
def effectiveCallTimeout (t : Nat) : Nat :=
  if t = 0 then DefaultCallTimeout else t

/-- The broker package state: `DefaultCallTimeout` is declared with `var`
in Go (part_000 line 18), hence it is a mutable package-level variable.
This structure embeds the package-level mutable state. -/
structure BrokerPkgVars where
  DefaultCallTimeout : Nat
deriving DecidableEq

/-- The broker package state at process start: `var DefaultCallTimeout =
time.Minute`. -/
def initBrokerPkgVars : BrokerPkgVars :=
  { DefaultCallTimeout := 60000000000 }

/-- Assignment to the package-level `var DefaultCallTimeout`; Go permits
this for any importing package, which is what makes the variable mutable
process-wide state. -/
def setDefaultCallTimeout (_s : BrokerPkgVars) (v : Nat) : BrokerPkgVars :=
  { DefaultCallTimeout := v }

/-- Modelled from the spec: the adapter timeout fallback, reading the
default from the package-level variable rather than from a configuration
object. -/
def effectiveCallTimeoutVar (pkg : BrokerPkgVars) (t : Nat) : Nat :=
  if t = 0 then pkg.DefaultCallTimeout else t

/-! ### Streaming-connection lazy accessor (spec 4.B)

Modelled from the spec: the redis implementations of `ResultsConn`,
`CallsConn` and `PubSubConn` are not under the sources at hand; only the
interfaces are (part_000 and broker.go).  Their documented contract:
"Only the first call to Results/Calls/Events starts the goroutine ...
Subsequent calls return the same channel, so that many consumers can
process results." -/

/-- The state of one streaming connection: the identity of its single
item channel (allocated at construction) and whether the background pump
goroutine has been started. -/
structure StreamConn where
  ch : Nat
  pumpStarted : Bool
deriving DecidableEq

/-- Modelled from the spec: the shared accessor (`Results()`, `Calls()` or
`Events()`).  Returns the updated connection, the channel handed to the
caller, and whether this call started the background pump. -/
def streamAccess (s : StreamConn) : StreamConn × Nat × Bool :=
  if s.pumpStarted then (s, s.ch, false)
  else ({ s with pumpStarted := true }, s.ch, true)

/-- Run `n` successive accessor calls, collecting for each call the channel
returned and whether that call started the pump. -/
def runAccesses : StreamConn → Nat → StreamConn × List (Nat × Bool)
  | s, 0 => (s, [])
  | s, n + 1 =>
    let r := streamAccess s
    let rest := runAccesses r.1 n
    (rest.1, r.2 :: rest.2)

/-! ### Stream close and error reporting (spec 4.B)

Modelled from the spec: "The stream is closed by the pump on first error or
on Close(). After close, Err() returns the root cause (or nil for a clean
close)"; the interface docs add "Is only non-nil once the channel is
closed." -/

/-- Events affecting one streaming connection: the pump hitting a backend
error, a call to `Close()`, and the pump forwarding one received item. -/
inductive SEvent where
  | pumpErr (e : Nat)
  | closeCall
  | recv (item : Nat)
deriving DecidableEq

/-- The close/error state of one streaming connection. -/
structure StreamState where
  closed : Bool
  errCause : Option Nat
deriving DecidableEq

/-- A freshly opened streaming connection: channel open, no error. -/
def initStream : StreamState := ⟨false, none⟩

/-- Modelled from the spec: the pump closes the stream recording the root
cause on its first error; `Close()` closes it cleanly; once closed, further
events do not change the state; received items do not close it. -/
def streamStep (s : StreamState) (e : SEvent) : StreamState :=
  if s.closed then s
  else
    match e with
    | .pumpErr err => ⟨true, some err⟩
    | .closeCall => ⟨true, none⟩
    | .recv _ => s

/-- Run a streaming connection through a sequence of events. -/
def runStream (s : StreamState) (evs : List SEvent) : StreamState :=
  evs.foldl streamStep s

/-- Modelled from the spec: the error accessor (`ResultsErr`, `CallsErr` or
`EventsErr`) returns the recorded error field. -/
def streamErr (s : StreamState) : Option Nat := s.errCause

/-- The root cause that closes the stream for a given event sequence: the
first pump error, unless a clean `Close()` comes first. -/
def firstCause : List SEvent → Option Nat
  | [] => none
  | .pumpErr e :: _ => some e
  | .closeCall :: _ => none
  | .recv _ :: rest => firstCause rest

/-- Whether an event closes the stream. -/
def closesStream : SEvent → Bool
  | .pumpErr _ => true
  | .closeCall => true
  | .recv _ => false

/-! ### Subscription sets (spec 4.C)

Modelled from the spec: the redis `PubSubConn` implementation is not under
the sources at hand; only the interface is.  The spec: "PubSubConn tracks
two sets — exact channels and patterns ... Subscribe/Unsubscribe are
idempotent: repeat subscribe on a channel already subscribed is a no-op
success; unsubscribe from an unknown channel is a no-op success."  A
subscription key is a (channel, pattern-flag) pair; both operations are
total, i.e. they always succeed. -/

/-- A subscription key: channel name and whether it is a pattern. -/
abbrev SubKey := String × Bool

/-- Modelled from the spec: `Subscribe(channel, pattern)` adds the key to
the subscription set; adding an already-present key is a no-op. -/
def subscribe (subs : List SubKey) (k : SubKey) : List SubKey :=
  if k ∈ subs then subs else k :: subs

/-- Modelled from the spec: `Unsubscribe(channel, pattern)` removes the key
from the subscription set; removing an absent key is a no-op. -/
def unsubscribe (subs : List SubKey) (k : SubKey) : List SubKey :=
  subs.filter (fun x => decide (x ≠ k))

/-- One Subscribe (`true`) or Unsubscribe (`false`) operation on key `k`. -/
def applySubOp (k : SubKey) (subs : List SubKey) (b : Bool) : List SubKey :=
  if b then subscribe subs k else unsubscribe subs k

/-- Apply a sequence of Subscribe/Unsubscribe operations on key `k`. -/
def applySubOps (subs : List SubKey) (k : SubKey) (ops : List Bool) : List SubKey :=
  ops.foldl (applySubOp k) subs

/-- The last operation of a sequence, if any. -/
def lastOp : List Bool → Option Bool
  | [] => none
  | [b] => some b
  | _ :: b :: rest => lastOp (b :: rest)

/-! ### Broker call lifecycle (spec 3, 4.C)

Modelled from the spec: the redis adapter is not under the sources at hand;
this is the call-queue lifecycle the spec describes.  `Call(cp, timeout)`
appends the payload with expiration `now + timeout` (with the default
substituted for a zero timeout); a callee dequeue delivers the entry only
while `expiration >= now` and otherwise drops it silently; a result can be
registered only for a call that was actually delivered to a callee.
Message UUIDs are globally unique, so a submit requires a fresh UUID. -/

/-- The broker call-queue state: queued call entries as (uuid, expiration)
pairs, the uuids of calls delivered to a callee, and every uuid ever
submitted (uuids are globally unique). -/
structure BrokerState where
  queued : List (Nat × Nat)
  delivered : List Nat
  used : List Nat

/-- The broker starts with no calls. -/
def initBroker : BrokerState := ⟨[], [], []⟩

/-- Observable broker events, each stamped with the wall-clock instant at
which it happens: a caller submitting a call, a callee dequeuing (being
delivered) a call, the adapter silently dropping an expired queue entry,
and a RES being delivered for a call uuid. -/
inductive BEvent where
  | submit (now uuid timeout : Nat)
  | deliver (now callee uuid : Nat)
  | dropExpired (now uuid : Nat)
  | res (now resUUID forUUID : Nat)
deriving DecidableEq

/-- Modelled from the spec: one step of the broker call lifecycle.
`submit` enqueues with expiration `now + effectiveCallTimeout timeout`
and a globally fresh uuid; `deliver` hands one queued entry to one callee,
only while `now ≤ expiration`; `dropExpired` silently removes an entry
whose expiration passed (it is never delivered and never executed); `res`
delivers a RES, which requires the call to have been delivered to a
callee. -/
inductive BStep : BrokerState → BEvent → BrokerState → Prop where
  | submit {s : BrokerState} {now u t : Nat} (h : u ∉ s.used) :
      BStep s (.submit now u t)
        ⟨s.queued ++ [(u, now + effectiveCallTimeout t)], s.delivered, u :: s.used⟩
  | deliver {s : BrokerState} {now c u e : Nat} {l₁ l₂ : List (Nat × Nat)}
      (hq : s.queued = l₁ ++ (u, e) :: l₂) (hle : now ≤ e) :
      BStep s (.deliver now c u) ⟨l₁ ++ l₂, u :: s.delivered, s.used⟩
  | dropExpired {s : BrokerState} {now u e : Nat} {l₁ l₂ : List (Nat × Nat)}
      (hq : s.queued = l₁ ++ (u, e) :: l₂) (hlt : e < now) :
      BStep s (.dropExpired now u) ⟨l₁ ++ l₂, s.delivered, s.used⟩
  | res {s : BrokerState} {now r u : Nat} (hd : u ∈ s.delivered) :
      BStep s (.res now r u) s

/-- A broker state reachable from the initial state through a trace of
events. -/
inductive BReach : List BEvent → BrokerState → Prop where
  | nil : BReach [] initBroker
  | snoc {tr : List BEvent} {s : BrokerState} {e : BEvent} {s' : BrokerState} :
      BReach tr s → BStep s e s' → BReach (tr ++ [e]) s'

/-- Whether an event is a delivery of call uuid `u` to some callee. -/
def isDeliverOf (u : Nat) : BEvent → Bool
  | .deliver _ _ w => w == u
  | _ => false

/-- How many times call uuid `u` was delivered to a callee in a trace. -/
def deliversCount (u : Nat) (tr : List BEvent) : Nat :=
  tr.countP (isDeliverOf u)

/-- How many queue entries carry uuid `u`. -/
def qcount (u : Nat) (s : BrokerState) : Nat :=
  s.queued.countP (fun p => p.1 == u)

/-- The invariant, for a fixed call uuid `u`, that ties a reachable broker
state to its trace; it is what makes at-most-once delivery and
expiry-implies-no-result provable. -/
structure BInv (u : Nat) (tr : List BEvent) (s : BrokerState) : Prop where
  sub_used : ∀ t0 t, BEvent.submit t0 u t ∈ tr → u ∈ s.used
  q_sub : ∀ e, (u, e) ∈ s.queued →
    ∃ t0 t, BEvent.submit t0 u t ∈ tr ∧ e = t0 + effectiveCallTimeout t
  one_place : qcount u s + s.delivered.count u ≤ 1
  dlv_le : deliversCount u tr ≤ s.delivered.count u
  dlv_sub : ∀ now c, BEvent.deliver now c u ∈ tr →
    ∃ t0 t, BEvent.submit t0 u t ∈ tr ∧ now ≤ t0 + effectiveCallTimeout t
  dlvd_ev : u ∈ s.delivered → ∃ now c, BEvent.deliver now c u ∈ tr
  res_dlvd : ∀ now r, BEvent.res now r u ∈ tr → u ∈ s.delivered
  sub_uniq : ∀ t0 t t0' t', BEvent.submit t0 u t ∈ tr →
    BEvent.submit t0' u t' ∈ tr → t0 = t0' ∧ t = t'

/-! ### Server connection outbound ordering (spec 4.D, 5, 8)

Modelled from the spec: the server connection engine is not under the
sources at hand.  The spec: the demux handles each inbound CALL/PUB/SUB/
UNSB by synchronously enqueuing exactly one ACK or NACK to the single
writer, and only then releasing the pump path for that message ("the
writer still emits ACK first because the demux enqueues ACK synchronously
before releasing the pump's result path"); the writer preserves enqueue
order.  Message uuids are unique, so an inbound uuid is never seen twice.
Events whose `For` uuid belongs to another connection's publish never
collide with this connection's inbound uuids (global uuid uniqueness) and
are omitted. -/

/-- An outbound frame, by kind and referenced (`For`) uuid. -/
inductive Frame where
  | ack (forUUID : Nat)
  | nack (forUUID : Nat)
  | res (forUUID : Nat)
  | evnt (forUUID : Nat)
deriving DecidableEq

/-- The kind of an inbound client message handled by the demux. -/
inductive MKind where
  | call
  | pub
  | sub
  | unsb
deriving DecidableEq

/-- Per-connection engine state: the outbound frames in writer order, the
CALL uuids whose result path has been released, the PUB uuids whose event
path has been released, and all inbound uuids seen. -/
structure ConnState where
  out : List Frame
  pending : List Nat
  published : List Nat
  seen : List Nat

/-- A freshly accepted connection. -/
def initConn : ConnState := ⟨[], [], [], []⟩

/-- Events on one server connection: the demux processing an inbound
message (`ok` tells whether the broker submit succeeded, i.e. ACK vs
NACK), the results pump emitting a RES, and the pubsub pump emitting an
EVNT. -/
inductive CEvent where
  | inbound (k : MKind) (u : Nat) (ok : Bool)
  | pumpRes (u : Nat)
  | pumpEvnt (u : Nat)
deriving DecidableEq

/-- Modelled from the spec: one step of the connection engine.  Processing
an inbound message with a fresh uuid enqueues exactly one ACK or NACK and
only then releases the corresponding pump path; the results pump may emit
a RES only for a released CALL uuid; the pubsub pump may emit an EVNT only
for a released PUB uuid. -/
inductive CStep : ConnState → CEvent → ConnState → Prop where
  | inbound {s : ConnState} {k : MKind} {u : Nat} {ok : Bool} (h : u ∉ s.seen) :
      CStep s (.inbound k u ok)
        { out := s.out ++ [if ok then Frame.ack u else Frame.nack u],
          pending := if k = MKind.call ∧ ok = true then u :: s.pending else s.pending,
          published := if k = MKind.pub ∧ ok = true then u :: s.published else s.published,
          seen := u :: s.seen }
  | pumpRes {s : ConnState} {u : Nat} (h : u ∈ s.pending) :
      CStep s (.pumpRes u) { s with out := s.out ++ [Frame.res u] }
  | pumpEvnt {s : ConnState} {u : Nat} (h : u ∈ s.published) :
      CStep s (.pumpEvnt u) { s with out := s.out ++ [Frame.evnt u] }

/-- A connection state reachable from a fresh connection through a trace. -/
inductive CReach : List CEvent → ConnState → Prop where
  | nil : CReach [] initConn
  | snoc {tr : List CEvent} {s : ConnState} {e : CEvent} {s' : ConnState} :
      CReach tr s → CStep s e s' → CReach (tr ++ [e]) s'

/-- Whether a frame is an ACK or NACK for uuid `u`. -/
def isAckNackFor (u : Nat) (f : Frame) : Bool :=
  f == Frame.ack u || f == Frame.nack u

/-- How many ACK/NACK frames for uuid `u` a frame list holds. -/
def ackNackCount (u : Nat) (out : List Frame) : Nat :=
  out.countP (isAckNackFor u)

/-- Whether a frame is a later message referring to uuid `u` (a RES or an
EVNT whose `For` field is `u`). -/
def refersTo (u : Nat) (f : Frame) : Prop :=
  f = Frame.res u ∨ f = Frame.evnt u

/-- The invariant, for a fixed inbound uuid `u`, tying a reachable
connection state to its trace. -/
structure CInv (u : Nat) (tr : List CEvent) (s : ConnState) : Prop where
  in_seen : ∀ k ok, CEvent.inbound k u ok ∈ tr → u ∈ s.seen
  seen_in : u ∈ s.seen → ∃ k ok, CEvent.inbound k u ok ∈ tr
  cnt_seen : u ∈ s.seen → ackNackCount u s.out = 1
  cnt_unseen : u ∉ s.seen → ackNackCount u s.out = 0
  pend_seen : u ∈ s.pending → u ∈ s.seen
  pub_seen : u ∈ s.published → u ∈ s.seen
  prec : ∀ pre f suf, s.out = pre ++ f :: suf → refersTo u f →
    ∃ a ∈ pre, isAckNackFor u a = true

/-! ### CLI client (cmd/juggler-client/cmd.go)

The client keeps a package-level slice `connections []*client.Client`;
numeric connection IDs shown to the user are 1-based positions in that
slice, where a `nil` slot is a disconnected connection.  A slot is
modelled as `Option Nat` (`none` = nil pointer, `some c` = the client
object identity). -/

/-- The numeric value of a decimal digit character, if it is one. -/
def digitVal (c : Char) : Option Nat :=
  if '0' ≤ c ∧ c ≤ '9' then some (c.toNat - '0'.toNat) else none

/-- Accumulate decimal digits left to right, failing on a non-digit
(Go `strconv.ParseInt` digit loop). -/
def digitsLoop : List Char → Nat → Option Nat
  | [], acc => some acc
  | c :: rest, acc =>
    match digitVal c with
    | some d => digitsLoop rest (acc * 10 + d)
    | none => none

/-- The value of a non-empty all-digit character list. -/
def digitsVal (cs : List Char) : Option Nat :=
  if cs.isEmpty then none else digitsLoop cs 0

/-- The largest Go `int` (64-bit) value. -/
def int64Max : Nat := 9223372036854775807

/-- Go `strconv.Atoi`: an optional sign followed by at least one decimal
digit, rejecting values outside the 64-bit `int` range (in which case Go
returns a non-nil error, which `getConn` treats as failure). -/
def atoi (s : String) : Option Int :=
  match s.data with
  | [] => none
  | c :: rest =>
    if c = '-' then
      match digitsVal rest with
      | some n => if n ≤ int64Max + 1 then some (-(n : Int)) else none
      | none => none
    else if c = '+' then
      match digitsVal rest with
      | some n => if n ≤ int64Max then some (n : Int) else none
      | none => none
    else
      match digitsVal (c :: rest) with
      | some n => if n ≤ int64Max then some (n : Int) else none
      | none => none

/-- `getConn` from cmd.go: parse the argument with `strconv.Atoi`; on
parse error return (nil, 0); if `0 < ix ≤ len(connections)` and slot
`ix-1` is non-nil, return that client and `ix-1`; otherwise (nil, 0). -/
def getConn (conns : List (Option Nat)) (arg : String) : Option Nat × Nat :=
  match atoi arg with
  | none => (none, 0)
  | some ix =>
    if 0 < ix ∧ ix ≤ (conns.length : Int) then
      match conns[(ix - 1).toNat]? with
      | some (some c) => (some c, (ix - 1).toNat)
      | _ => (none, 0)
    else (none, 0)

/-- `connectCmd` from cmd.go: a successful dial appends the new client to
the `connections` slice (`connections = append(connections, conn)`). -/
def connectOp (conns : List (Option Nat)) (c : Nat) : List (Option Nat) :=
  conns ++ [some c]

/-- `disconnectCmd` from cmd.go: if `getConn` finds a live connection, its
slot is set to nil (`connections[ix] = nil`); otherwise the slice is left
unchanged. -/
def disconnectOp (conns : List (Option Nat)) (arg : String) : List (Option Nat) :=
  match getConn conns arg with
  | (some _, ix) => conns.set ix none
  | (none, _) => conns

/-- A session operation on the connections slice: a successful connect or
a disconnect command. -/
inductive COp where
  | connect (c : Nat)
  | disconnect (arg : String)

/-- Apply a session of connect/disconnect operations. -/
def applyCOps (conns : List (Option Nat)) (ops : List COp) : List (Option Nat) :=
  ops.foldl
    (fun s op =>
      match op with
      | COp.connect c => connectOp s c
      | COp.disconnect a => disconnectOp s a)
    conns

/-- The backtick character (ASCII 96). -/
def backtick : Char := Char.ofNat 96

/-- The CALL payload the client sends: nothing (Go nil), an ordinary
string to be marshaled as a JSON string, or raw JSON bytes. -/
inductive CallArg where
  | nilArg
  | str (s : String)
  | raw (s : String)
deriving DecidableEq

/-- `strings.Join(args[3:], " ")` from callCmd. -/
def joinedCallArgs (args : List String) : String :=
  String.intercalate " " (args.drop 3)

/-- The payload selection of `callCmd` in cmd.go: `v` is the joined ARGS
when present (else the empty string, with the payload left nil); if
`len(v) > 2 && v[0] == backtick && v[len(v)-1] == backtick` the payload
becomes the raw JSON `v[1:len(v)-1]`.  Byte indexing coincides with
character indexing here because the backtick is a one-byte character and
no multi-byte character has a byte equal to 96. -/
def callPayloadArg (args : List String) : CallArg :=
  let v := if 3 < args.length then joinedCallArgs args else ""
  let pld := if 3 < args.length then CallArg.str v else CallArg.nilArg
  if 2 < v.length ∧ v.data.head? = some backtick ∧ v.data.getLast? = some backtick then
    CallArg.raw (String.mk ((v.data.drop 1).dropLast))
  else pld

/-! ## Theorems -/

theorem streamAccess_started {s : StreamConn} (h : s.pumpStarted = true) :
    streamAccess s = (s, s.ch, false) := by
  simp [streamAccess, h]

theorem runAccesses_started {s : StreamConn} (h : s.pumpStarted = true) :
    ∀ n, runAccesses s n = (s, List.replicate n (s.ch, false)) := by
  intro n
  induction n with
  | zero => simp [runAccesses]
  | succ n ih =>
    simp [runAccesses, streamAccess_started h, ih, List.replicate_succ]

theorem runStream_closed {s : StreamState} (h : s.closed = true) :
    ∀ evs, runStream s evs = s := by
  intro evs
  induction evs with
  | nil => rfl
  | cons e rest ih =>
    show runStream (streamStep s e) rest = s
    have hs : streamStep s e = s := by simp [streamStep, h]
    rw [hs, ih]

theorem mem_subscribe_self (subs : List SubKey) (k : SubKey) :
    k ∈ subscribe subs k := by
  unfold subscribe
  by_cases h : k ∈ subs
  · simp [h]
  · simp [h]

theorem not_mem_unsubscribe_self (subs : List SubKey) (k : SubKey) :
    k ∉ unsubscribe subs k := by
  unfold unsubscribe
  intro h
  have := List.of_mem_filter h
  simp at this

theorem mem_subscribe_ne {subs : List SubKey} {k k' : SubKey} (h : k' ≠ k) :
    k' ∈ subscribe subs k ↔ k' ∈ subs := by
  unfold subscribe
  by_cases hm : k ∈ subs
  · simp [hm]
  · simp [hm, List.mem_cons, h]

theorem mem_unsubscribe_ne {subs : List SubKey} {k k' : SubKey} (h : k' ≠ k) :
    k' ∈ unsubscribe subs k ↔ k' ∈ subs := by
  unfold unsubscribe
  simp [List.mem_filter, h]

theorem mem_applySubOps_last :
    ∀ (ops : List Bool) (subs : List SubKey) (k : SubKey) (b : Bool),
      lastOp ops = some b → (k ∈ applySubOps subs k ops ↔ b = true) := by
  intro ops
  induction ops with
  | nil => intro subs k b h; simp [lastOp] at h
  | cons b0 rest ih =>
    intro subs k b h
    cases rest with
    | nil =>
      simp [lastOp] at h
      subst h
      show k ∈ applySubOps (applySubOp k subs b0) k [] ↔ b0 = true
      cases b0 with
      | true => simp [applySubOps, applySubOp, mem_subscribe_self]
      | false =>
        simp [applySubOps, applySubOp, not_mem_unsubscribe_self subs k]
    | cons b1 rest' =>
      have hlast : lastOp (b0 :: b1 :: rest') = lastOp (b1 :: rest') := rfl
      rw [hlast] at h
      show k ∈ applySubOps (applySubOp k subs b0) k (b1 :: rest') ↔ b = true
      exact ih (applySubOp k subs b0) k b h

theorem mem_applySubOps_ne :
    ∀ (ops : List Bool) (subs : List SubKey) (k k' : SubKey), k' ≠ k →
      (k' ∈ applySubOps subs k ops ↔ k' ∈ subs) := by
  intro ops
  induction ops with
  | nil => intro subs k k' _; simp [applySubOps]
  | cons b rest ih =>
    intro subs k k' hne
    show k' ∈ applySubOps (applySubOp k subs b) k rest ↔ k' ∈ subs
    rw [ih (applySubOp k subs b) k k' hne]
    cases b with
    | true => exact mem_subscribe_ne hne
    | false => exact mem_unsubscribe_ne hne

/-- C3: for every streaming connection, only the first accessor call
(`Results()`, `Calls()` or `Events()`) starts the background pump, and
every call — in particular every subsequent one — returns the same channel
as the first, so multiple consumers share one stream. -/
theorem C3_stream_accessor_idempotent (s : StreamConn) (n : Nat)
    (h : s.pumpStarted = false) :
    (∀ p ∈ (runAccesses s n).2, p.1 = s.ch) ∧
    (runAccesses s n).2.countP (fun p => p.2) = min n 1 ∧
    (0 < n → (runAccesses s n).2.head? = some (s.ch, true)) := by
  cases n with
  | zero => simp [runAccesses]
  | succ n =>
    have hacc : streamAccess s = ({ s with pumpStarted := true }, s.ch, true) := by
      simp [streamAccess, h]
    have hrun : runAccesses s (n + 1)
        = ({ s with pumpStarted := true }, (s.ch, true) :: List.replicate n (s.ch, false)) := by
      simp [runAccesses, hacc,
        runAccesses_started (s := { s with pumpStarted := true }) rfl n]
    rw [hrun]
    refine ⟨?_, ?_, ?_⟩
    · intro p hp
      rcases List.mem_cons.mp hp with h1 | h1
      · rw [h1]
      · rw [List.eq_of_mem_replicate h1]
    · have hz : (List.replicate n ((s.ch, false) : Nat × Bool)).countP (fun p => p.2) = 0 := by
        apply List.countP_eq_zero.mpr
        intro a ha
        rw [List.eq_of_mem_replicate ha]
        simp
      simp [List.countP_cons, hz]
    · intro _
      rfl

/-- Witness for C3: a concrete fresh connection run through three accessor
calls starts the pump exactly once. -/
theorem C3_stream_accessor_idempotent_witness :
    (runAccesses ⟨3, false⟩ 3).2.countP (fun p => p.2) = min 3 1 :=
  (C3_stream_accessor_idempotent ⟨3, false⟩ 3 rfl).2.1

/-- C4: the stream is closed only by the pump's first error or by
`Close()`; the error accessor returns nil while the channel is open, and
after close it returns the root cause that closed the stream, or nil for a
clean close. -/
theorem C4_stream_err_root_cause (evs : List SEvent) :
    ((runStream initStream evs).closed = true →
       streamErr (runStream initStream evs) = firstCause evs ∧
       ∃ e ∈ evs, closesStream e = true) ∧
    ((runStream initStream evs).closed = false →
       streamErr (runStream initStream evs) = none) := by
  induction evs with
  | nil =>
    constructor
    · intro hc; cases hc
    · intro _; rfl
  | cons e rest ih =>
    cases e with
    | pumpErr err =>
      have h1 : runStream initStream (SEvent.pumpErr err :: rest)
          = runStream ⟨true, some err⟩ rest := rfl
      rw [h1, runStream_closed rfl rest]
      constructor
      · intro _
        exact ⟨rfl, SEvent.pumpErr err, List.mem_cons_self _ _, rfl⟩
      · intro hc; cases hc
    | closeCall =>
      have h1 : runStream initStream (SEvent.closeCall :: rest)
          = runStream ⟨true, none⟩ rest := rfl
      rw [h1, runStream_closed rfl rest]
      constructor
      · intro _
        exact ⟨rfl, SEvent.closeCall, List.mem_cons_self _ _, rfl⟩
      · intro hc; cases hc
    | recv item =>
      have h1 : runStream initStream (SEvent.recv item :: rest)
          = runStream initStream rest := rfl
      rw [h1]
      constructor
      · intro hc
        obtain ⟨h2, e, he, hce⟩ := ih.1 hc
        exact ⟨h2, e, List.mem_cons_of_mem _ he, hce⟩
      · exact ih.2

/-- C5: Subscribe on an already-subscribed key and Unsubscribe on an
unknown key are no-ops (and always succeed, both operations being total);
any sequence of Subscribe/Unsubscribe operations on one (channel, pattern)
key leaves the key subscribed exactly when the final operation was a
Subscribe, and leaves every other key untouched. -/
theorem C5_subscribe_unsubscribe_idempotent (subs : List SubKey) (k k' : SubKey)
    (ops : List Bool) :
    (k ∈ subs → subscribe subs k = subs) ∧
    (k ∉ subs → unsubscribe subs k = subs) ∧
    (∀ b, lastOp ops = some b → (k ∈ applySubOps subs k ops ↔ b = true)) ∧
    (k' ≠ k → (k' ∈ applySubOps subs k ops ↔ k' ∈ subs)) := by
  refine ⟨?_, ?_, ?_, ?_⟩
  · intro h; simp [subscribe, h]
  · intro h
    unfold unsubscribe
    apply List.filter_eq_self.mpr
    intro x hx
    simp only [decide_eq_true_eq]
    exact fun he => h (he ▸ hx)
  · intro b hb; exact mem_applySubOps_last ops subs k b hb
  · intro h; exact mem_applySubOps_ne ops subs k k' h

/-- C6: a call submitted with timeout zero gets the configured default
timeout, and that default (one minute) is at least one millisecond. -/
theorem C6_zero_timeout_gets_default :
    effectiveCallTimeout 0 = DefaultCallTimeout ∧
    oneMillisecond ≤ DefaultCallTimeout := by
  constructor
  · rfl
  · decide

/-- C7 counterexample: the default call timeout is read from package-level
mutable state, so reassigning the package variable changes the timeout
substituted for a zero-timeout call — the claim that no package-level
mutable variable holds the default is false of the source
(part_000 line 18, `var DefaultCallTimeout = time.Minute`). -/
theorem C7_default_timeout_mutable_counterexample :
    effectiveCallTimeoutVar (setDefaultCallTimeout initBrokerPkgVars 42) 0 ≠
      effectiveCallTimeoutVar initBrokerPkgVars 0 := by
  decide

/-- C7 (amended): the default call timeout is held in the package-level
mutable variable `DefaultCallTimeout` of the broker package, initialized
to one minute and assignable process-wide; it is not a field of a broker
configuration object. -/
theorem C7_default_timeout_package_var :
    initBrokerPkgVars.DefaultCallTimeout = 60000000000 ∧
    ∀ s v, (setDefaultCallTimeout s v).DefaultCallTimeout = v :=
  ⟨rfl, fun _ _ => rfl⟩

theorem getConn_pos {conns : List (Option Nat)} {arg : String} {i : Int} {c : Nat}
    (ha : atoi arg = some i) (h1 : 1 ≤ i) (h2 : i ≤ (conns.length : Int))
    (hc : conns[(i - 1).toNat]? = some (some c)) :
    getConn conns arg = (some c, (i - 1).toNat) := by
  simp only [getConn, ha]
  rw [if_pos ⟨by omega, h2⟩]
  simp only [hc]

theorem getConn_spec (conns : List (Option Nat)) (arg : String) :
    getConn conns arg = (none, 0) ∨
    ∃ (i : Int) (c : Nat), atoi arg = some i ∧ 1 ≤ i ∧ i ≤ (conns.length : Int) ∧
      conns[(i - 1).toNat]? = some (some c) ∧
      getConn conns arg = (some c, (i - 1).toNat) := by
  cases hat : atoi arg with
  | none =>
    left
    simp only [getConn, hat]
  | some i =>
    by_cases hcond : 0 < i ∧ i ≤ (conns.length : Int)
    · cases hq : conns[(i - 1).toNat]? with
      | none =>
        left
        simp only [getConn, hat]
        rw [if_pos hcond]
        simp only [hq]
      | some o =>
        cases o with
        | none =>
          left
          simp only [getConn, hat]
          rw [if_pos hcond]
          simp only [hq]
        | some c =>
          right
          exact ⟨i, c, rfl, by omega, hcond.2, hq,
            getConn_pos hat (by omega) hcond.2 hq⟩
    · left
      simp only [getConn, hat]
      rw [if_neg hcond]

/-- C8: `getConn` returns a connection exactly when the argument parses as
a decimal integer `i` with `1 ≤ i ≤ len(connections)` and slot `i-1` holds
a non-nil connection; it then returns that slot's connection together with
the in-bounds index `i-1`; in every other case (non-numeric, zero,
negative, out of range, or a disconnected slot) it returns nil with index
0, and it never indexes the connections slice out of bounds. -/
theorem C8_getConn_safe (conns : List (Option Nat)) (arg : String) :
    ((getConn conns arg).1 ≠ none ↔
      ∃ (i : Int) (c : Nat), atoi arg = some i ∧ 1 ≤ i ∧ i ≤ (conns.length : Int) ∧
        conns[(i - 1).toNat]? = some (some c)) ∧
    (∀ c, (getConn conns arg).1 = some c →
      ∃ i : Int, atoi arg = some i ∧ (getConn conns arg).2 = (i - 1).toNat ∧
        conns[(getConn conns arg).2]? = some (some c) ∧
        (getConn conns arg).2 < conns.length) ∧
    ((getConn conns arg).1 = none → (getConn conns arg).2 = 0) := by
  rcases getConn_spec conns arg with hg | ⟨i, c, ha, h1, h2, hc, hg⟩
  · rw [hg]
    refine ⟨?_, ?_, ?_⟩
    · constructor
      · intro h; exact absurd rfl h
      · rintro ⟨i, c, ha, h1, h2, hc⟩
        have := getConn_pos ha h1 h2 hc
        rw [hg] at this
        cases this
    · intro c hcontra; cases hcontra
    · intro _; rfl
  · rw [hg]
    refine ⟨?_, ?_, ?_⟩
    · constructor
      · intro _; exact ⟨i, c, ha, h1, h2, hc⟩
      · intro _; simp
    · intro c' hc'
      have hcc : c = c' := Option.some.inj hc'
      subst hcc
      exact ⟨i, ha, rfl, hc, (List.getElem?_eq_some.mp hc).1⟩
    · intro h; cases h

theorem disconnectOp_length (conns : List (Option Nat)) (arg : String) :
    (disconnectOp conns arg).length = conns.length := by
  unfold disconnectOp
  rcases hg : getConn conns arg with ⟨fst, snd⟩
  cases fst with
  | none => rfl
  | some c => simp [List.length_set]

theorem applyCOps_stable :
    ∀ (ops : List COp) (s : List (Option Nat)) (j : Nat), j < s.length →
      s.length ≤ (applyCOps s ops).length ∧
      ((applyCOps s ops)[j]? = s[j]? ∨ (applyCOps s ops)[j]? = some none) := by
  intro ops
  induction ops with
  | nil => intro s j _; exact ⟨le_refl _, Or.inl rfl⟩
  | cons op rest ih =>
    intro s j hj
    cases op with
    | connect c =>
      have hstep : applyCOps s (COp.connect c :: rest) = applyCOps (connectOp s c) rest := rfl
      have hlen1 : s.length ≤ (connectOp s c).length := by
        simp [connectOp]
      have hj' : j < (connectOp s c).length := lt_of_lt_of_le hj hlen1
      obtain ⟨hlen, hval⟩ := ih (connectOp s c) j hj'
      rw [hstep]
      refine ⟨le_trans hlen1 hlen, ?_⟩
      have hkeep : (connectOp s c)[j]? = s[j]? := List.getElem?_append_left hj
      rcases hval with h | h
      · left; rw [h, hkeep]
      · right; exact h
    | disconnect a =>
      have hstep : applyCOps s (COp.disconnect a :: rest)
          = applyCOps (disconnectOp s a) rest := rfl
      have hlen1 : (disconnectOp s a).length = s.length := disconnectOp_length s a
      have hj' : j < (disconnectOp s a).length := by rw [hlen1]; exact hj
      obtain ⟨hlen, hval⟩ := ih (disconnectOp s a) j hj'
      rw [hstep]
      refine ⟨by rw [← hlen1]; exact hlen, ?_⟩
      have hkeep : (disconnectOp s a)[j]? = s[j]? ∨ (disconnectOp s a)[j]? = some none := by
        unfold disconnectOp
        rcases hg : getConn s a with ⟨fst, snd⟩
        cases fst with
        | none => left; rfl
        | some c =>
          rw [List.getElem?_set]
          by_cases hsj : snd = j
          · subst hsj
            rw [if_pos rfl, if_pos hj]
            right; rfl
          · rw [if_neg hsj]
            left; rfl
      rcases hval with h | h
      · rcases hkeep with h2 | h2
        · left; rw [h, h2]
        · right; rw [h, h2]
      · right; exact h

/-- C10: disconnecting connection `i` sets only slot `i-1` to nil and
leaves every other slot unchanged; connect only appends; hence over any
session of connect/disconnect operations an existing slot either keeps its
value or becomes nil, so live connection IDs are stable and a disconnected
ID is never reassigned. -/
theorem C10_connection_ids_stable (conns : List (Option Nat)) (arg : String)
    (c : Nat) (ops : List COp) (j : Nat) :
    (disconnectOp conns arg).length = conns.length ∧
    (∀ j', j' ≠ (getConn conns arg).2 → (disconnectOp conns arg)[j']? = conns[j']?) ∧
    ((getConn conns arg).1 ≠ none →
      (disconnectOp conns arg)[(getConn conns arg).2]? = some none) ∧
    (j < conns.length → (connectOp conns c)[j]? = conns[j]?) ∧
    (j < conns.length →
      (applyCOps conns ops)[j]? = conns[j]? ∨ (applyCOps conns ops)[j]? = some none) := by
  refine ⟨disconnectOp_length conns arg, ?_, ?_, ?_, ?_⟩
  · intro j' hne
    unfold disconnectOp
    rcases hg : getConn conns arg with ⟨fst, snd⟩
    cases fst with
    | none => rfl
    | some c' =>
      have hsnd : snd = (getConn conns arg).2 := by rw [hg]
      rw [List.getElem?_set_ne (by rw [hsnd]; exact fun h => hne h.symm)]
  · intro hne
    rcases getConn_spec conns arg with hg | ⟨i, c', ha, h1, h2, hc, hg⟩
    · rw [hg] at hne; exact absurd rfl hne
    · have hlt : (i - 1).toNat < conns.length := (List.getElem?_eq_some.mp hc).1
      unfold disconnectOp
      rw [hg]
      show (conns.set (i - 1).toNat none)[(i - 1).toNat]? = some none
      exact List.getElem?_set_self hlt
  · intro hj
    exact List.getElem?_append_left hj
  · intro hj
    exact (applyCOps_stable ops conns j hj).2

theorem joinedCallArgs_short {args : List String} (h : ¬ 3 < args.length) :
    joinedCallArgs args = "" := by
  unfold joinedCallArgs
  rw [List.drop_eq_nil_of_le (by omega)]
  rfl

/-- C9: in callCmd, the joined arguments string is sent as raw JSON with
its first and last characters stripped exactly when its length is strictly
greater than 2 and both its first and last characters are backticks; in
every other case where arguments are present — including the two-character
string of exactly two backticks — it is sent as an ordinary string to be
marshaled as a JSON string. -/
theorem C9_call_backtick_raw (args : List String) :
    (∀ s, callPayloadArg args = CallArg.raw s ↔
      (2 < (joinedCallArgs args).length ∧
       (joinedCallArgs args).data.head? = some backtick ∧
       (joinedCallArgs args).data.getLast? = some backtick ∧
       s = String.mk (((joinedCallArgs args).data.drop 1).dropLast))) ∧
    (3 < args.length →
      ¬(2 < (joinedCallArgs args).length ∧
        (joinedCallArgs args).data.head? = some backtick ∧
        (joinedCallArgs args).data.getLast? = some backtick) →
      callPayloadArg args = CallArg.str (joinedCallArgs args)) := by
  have hjv : (if 3 < args.length then joinedCallArgs args else "") = joinedCallArgs args := by
    by_cases h : 3 < args.length
    · rw [if_pos h]
    · rw [if_neg h, joinedCallArgs_short h]
  constructor
  · intro s
    simp only [callPayloadArg, hjv]
    by_cases hc : 2 < (joinedCallArgs args).length ∧
        (joinedCallArgs args).data.head? = some backtick ∧
        (joinedCallArgs args).data.getLast? = some backtick
    · rw [if_pos hc]
      constructor
      · intro h
        exact ⟨hc.1, hc.2.1, hc.2.2, (CallArg.raw.inj h).symm⟩
      · rintro ⟨-, -, -, hs⟩
        rw [hs]
    · rw [if_neg hc]
      constructor
      · intro h
        by_cases hl : 3 < args.length
        · rw [if_pos hl] at h; cases h
        · rw [if_neg hl] at h; cases h
      · rintro ⟨h1, h2, h3, -⟩
        exact absurd ⟨h1, h2, h3⟩ hc
  · intro hlen hnc
    simp only [callPayloadArg, hjv]
    rw [if_neg hnc, if_pos hlen]

theorem deliversCount_snoc (u : Nat) (tr : List BEvent) (e : BEvent) :
    deliversCount u (tr ++ [e])
      = deliversCount u tr + (if isDeliverOf u e = true then 1 else 0) := by
  unfold deliversCount
  rw [List.countP_append, List.countP_cons, List.countP_nil, Nat.zero_add]

theorem BInv_init (u : Nat) : BInv u [] initBroker := by
  refine ⟨?_, ?_, ?_, ?_, ?_, ?_, ?_, ?_⟩
  · exact fun t0 t h => absurd h (List.not_mem_nil _)
  · exact fun e h => absurd h (List.not_mem_nil _)
  · simp [qcount, initBroker]
  · simp [deliversCount]
  · exact fun now c h => absurd h (List.not_mem_nil _)
  · exact fun h => absurd h (List.not_mem_nil _)
  · exact fun now r h => absurd h (List.not_mem_nil _)
  · exact fun t0 t t0' t' h _ => absurd h (List.not_mem_nil _)

theorem BInv_step {u : Nat} {tr : List BEvent} {s : BrokerState} {ev : BEvent}
    {s' : BrokerState} (inv : BInv u tr s) (hst : BStep s ev s') :
    BInv u (tr ++ [ev]) s' := by
  have hmem : ∀ {x : BEvent}, x ∈ tr ++ [ev] → x ∈ tr ∨ x = ev := by
    intro x hx
    rcases List.mem_append.mp hx with h | h
    · exact Or.inl h
    · exact Or.inr (List.mem_singleton.mp h)
  have hup : ∀ {x : BEvent}, x ∈ tr → x ∈ tr ++ [ev] :=
    fun h => List.mem_append_left _ h
  have hself : ev ∈ tr ++ [ev] :=
    List.mem_append_right _ (List.mem_singleton.mpr rfl)
  cases hst with
  | @submit now w t hw =>
    rcases eq_or_ne w u with rfl | hwu
    · -- submitting the tracked uuid: it must be fresh
      have hnosub : ∀ t0 t', BEvent.submit t0 w t' ∉ tr := by
        intro t0 t' hmemS
        exact hw (inv.sub_used t0 t' hmemS)
      have hqz : s.queued.countP (fun p => p.1 == w) = 0 := by
        rw [List.countP_eq_zero]
        intro p hp hbe
        have hp1 : p.1 = w := by simpa using hbe
        have hpu : (w, p.2) ∈ s.queued := by rw [← hp1]; exact hp
        obtain ⟨t0, t', hsub, -⟩ := inv.q_sub p.2 hpu
        exact hnosub t0 t' hsub
      have hdz : s.delivered.count w = 0 := by
        rw [List.count_eq_zero]
        intro hmemD
        obtain ⟨now', c', hd⟩ := inv.dlvd_ev hmemD
        obtain ⟨t0, t', hsub, -⟩ := inv.dlv_sub now' c' hd
        exact hnosub t0 t' hsub
      refine ⟨?_, ?_, ?_, ?_, ?_, ?_, ?_, ?_⟩
      · intro t0 t' _
        exact List.mem_cons_self _ _
      · intro e hmemQ
        rcases List.mem_append.mp hmemQ with hq | hq
        · obtain ⟨t0, t', hsub, he⟩ := inv.q_sub e hq
          exact ⟨t0, t', hup hsub, he⟩
        · have he := List.mem_singleton.mp hq
          exact ⟨now, t, hself, congrArg Prod.snd he⟩
      · show (s.queued ++ [(w, now + effectiveCallTimeout t)]).countP (fun p => p.1 == w)
            + s.delivered.count w ≤ 1
        rw [List.countP_append]
        have he : ([((w : Nat), now + effectiveCallTimeout t)]).countP (fun p => p.1 == w) = 1 := by
          simp
        rw [he]
        omega
      · show deliversCount w (tr ++ [BEvent.submit now w t]) ≤ s.delivered.count w
        rw [deliversCount_snoc]
        simp only [isDeliverOf, if_neg]
        simp
        exact inv.dlv_le
      · intro now' c hmemD
        rcases hmem hmemD with h | h
        · obtain ⟨t0, t', hsub, hle⟩ := inv.dlv_sub now' c h
          exact ⟨t0, t', hup hsub, hle⟩
        · cases h
      · intro hd
        obtain ⟨now', c, h⟩ := inv.dlvd_ev hd
        exact ⟨now', c, hup h⟩
      · intro now' r hmemR
        rcases hmem hmemR with h | h
        · exact inv.res_dlvd now' r h
        · cases h
      · intro t0 t1 t0' t1' h1 h2
        rcases hmem h1 with ha | ha
        · exact absurd ha (hnosub t0 t1)
        · rcases hmem h2 with hb | hb
          · exact absurd hb (hnosub t0' t1')
          · injection ha with ha1 ha2 ha3
            injection hb with hb1 hb2 hb3
            exact ⟨by rw [ha1, hb1], by rw [ha3, hb3]⟩
    · -- submitting a different uuid
      refine ⟨?_, ?_, ?_, ?_, ?_, ?_, ?_, ?_⟩
      · intro t0 t' h
        rcases hmem h with h | h
        · exact List.mem_cons_of_mem _ (inv.sub_used t0 t' h)
        · injection h with h1 h2 h3
          exact absurd h2.symm hwu
      · intro e h
        rcases List.mem_append.mp h with h | h
        · obtain ⟨t0, t', hsub, he⟩ := inv.q_sub e h
          exact ⟨t0, t', hup hsub, he⟩
        · have he := List.mem_singleton.mp h
          exact absurd (congrArg Prod.fst he).symm hwu
      · show (s.queued ++ [(w, now + effectiveCallTimeout t)]).countP (fun p => p.1 == u)
            + s.delivered.count u ≤ 1
        rw [List.countP_append]
        have he : ([((w : Nat), now + effectiveCallTimeout t)]).countP (fun p => p.1 == u) = 0 := by
          simp [hwu]
        rw [he]
        have h1 := inv.one_place
        unfold qcount at h1
        omega
      · show deliversCount u (tr ++ [BEvent.submit now w t]) ≤ s.delivered.count u
        rw [deliversCount_snoc]
        simp only [isDeliverOf]
        simp
        exact inv.dlv_le
      · intro now' c h
        rcases hmem h with h | h
        · obtain ⟨t0, t', hsub, hle⟩ := inv.dlv_sub now' c h
          exact ⟨t0, t', hup hsub, hle⟩
        · cases h
      · intro hd
        obtain ⟨now', c, h⟩ := inv.dlvd_ev hd
        exact ⟨now', c, hup h⟩
      · intro now' r h
        rcases hmem h with h | h
        · exact inv.res_dlvd now' r h
        · cases h
      · intro t0 t1 t0' t1' h1 h2
        rcases hmem h1 with ha | ha
        · rcases hmem h2 with hb | hb
          · exact inv.sub_uniq t0 t1 t0' t1' ha hb
          · injection hb with hb1 hb2 hb3
            exact absurd hb2.symm hwu
        · injection ha with ha1 ha2 ha3
          exact absurd ha2.symm hwu
  | @deliver now c w e l₁ l₂ hq hle =>
    have hsubq : ∀ {p : Nat × Nat}, p ∈ l₁ ++ l₂ → p ∈ s.queued := by
      intro p hp
      rw [hq]
      rcases List.mem_append.mp hp with h | h
      · exact List.mem_append_left _ h
      · exact List.mem_append_right _ (List.mem_cons_of_mem _ h)
    rcases eq_or_ne w u with rfl | hwu
    · -- delivering the tracked call
      have hqe : (w, e) ∈ s.queued := by
        rw [hq]
        exact List.mem_append_right _ (List.mem_cons_self _ _)
      obtain ⟨ts, tt, hsub, hee⟩ := inv.q_sub e hqe
      have hcounts : l₁.countP (fun p => p.1 == w) = 0 ∧
          l₂.countP (fun p => p.1 == w) = 0 ∧ s.delivered.count w = 0 := by
        have h1 := inv.one_place
        unfold qcount at h1
        rw [hq, List.countP_append, List.countP_cons] at h1
        simp at h1
        omega
      refine ⟨?_, ?_, ?_, ?_, ?_, ?_, ?_, ?_⟩
      · intro t0 t' h
        rcases hmem h with h | h
        · exact inv.sub_used t0 t' h
        · cases h
      · intro e' h
        obtain ⟨t0, t', hsub2, he⟩ := inv.q_sub e' (hsubq h)
        exact ⟨t0, t', hup hsub2, he⟩
      · show (l₁ ++ l₂).countP (fun p => p.1 == w) + (w :: s.delivered).count w ≤ 1
        rw [List.countP_append, List.count_cons]
        simp
        omega
      · show deliversCount w (tr ++ [BEvent.deliver now c w]) ≤ (w :: s.delivered).count w
        rw [deliversCount_snoc, List.count_cons]
        have hd1 : isDeliverOf w (BEvent.deliver now c w) = true := by
          simp [isDeliverOf]
        rw [hd1]
        simp
        exact inv.dlv_le
      · intro now' c' h
        rcases hmem h with h | h
        · obtain ⟨t0, t1, hs2, hl⟩ := inv.dlv_sub now' c' h
          exact ⟨t0, t1, hup hs2, hl⟩
        · injection h with h1 h2 h3
          subst h1
          exact ⟨ts, tt, hup hsub, by rw [← hee]; exact hle⟩
      · intro _
        exact ⟨now, c, hself⟩
      · intro now' r h
        rcases hmem h with h | h
        · exact List.mem_cons_of_mem _ (inv.res_dlvd now' r h)
        · cases h
      · intro t0 t1 t0' t1' h1 h2
        rcases hmem h1 with ha | ha
        · rcases hmem h2 with hb | hb
          · exact inv.sub_uniq t0 t1 t0' t1' ha hb
          · cases hb
        · cases ha
    · -- delivering a different call
      refine ⟨?_, ?_, ?_, ?_, ?_, ?_, ?_, ?_⟩
      · intro t0 t' h
        rcases hmem h with h | h
        · exact inv.sub_used t0 t' h
        · cases h
      · intro e' h
        obtain ⟨t0, t', hsub2, he⟩ := inv.q_sub e' (hsubq h)
        exact ⟨t0, t', hup hsub2, he⟩
      · show (l₁ ++ l₂).countP (fun p => p.1 == u) + (w :: s.delivered).count u ≤ 1
        rw [List.countP_append, List.count_cons]
        have h1 := inv.one_place
        unfold qcount at h1
        rw [hq, List.countP_append, List.countP_cons] at h1
        simp [hwu] at h1 ⊢
        omega
      · show deliversCount u (tr ++ [BEvent.deliver now c w]) ≤ (w :: s.delivered).count u
        rw [deliversCount_snoc, List.count_cons]
        have hd1 : isDeliverOf u (BEvent.deliver now c w) = false := by
          simp [isDeliverOf, hwu]
        rw [hd1]
        simp [hwu]
        exact inv.dlv_le
      · intro now' c' h
        rcases hmem h with h | h
        · obtain ⟨t0, t1, hs2, hl⟩ := inv.dlv_sub now' c' h
          exact ⟨t0, t1, hup hs2, hl⟩
        · injection h with h1 h2 h3
          exact absurd h3.symm hwu
      · intro hd
        rcases List.mem_cons.mp hd with h | h
        · exact absurd h.symm hwu
        · obtain ⟨now', c', h2⟩ := inv.dlvd_ev h
          exact ⟨now', c', hup h2⟩
      · intro now' r h
        rcases hmem h with h | h
        · exact List.mem_cons_of_mem _ (inv.res_dlvd now' r h)
        · cases h
      · intro t0 t1 t0' t1' h1 h2
        rcases hmem h1 with ha | ha
        · rcases hmem h2 with hb | hb
          · exact inv.sub_uniq t0 t1 t0' t1' ha hb
          · cases hb
        · cases ha
  | @dropExpired now w e l₁ l₂ hq hlt =>
    have hsubq : ∀ {p : Nat × Nat}, p ∈ l₁ ++ l₂ → p ∈ s.queued := by
      intro p hp
      rw [hq]
      rcases List.mem_append.mp hp with h | h
      · exact List.mem_append_left _ h
      · exact List.mem_append_right _ (List.mem_cons_of_mem _ h)
    refine ⟨?_, ?_, ?_, ?_, ?_, ?_, ?_, ?_⟩
    · intro t0 t' h
      rcases hmem h with h | h
      · exact inv.sub_used t0 t' h
      · cases h
    · intro e' h
      obtain ⟨t0, t', hsub2, he⟩ := inv.q_sub e' (hsubq h)
      exact ⟨t0, t', hup hsub2, he⟩
    · show (l₁ ++ l₂).countP (fun p => p.1 == u) + s.delivered.count u ≤ 1
      have h2 : l₂.countP (fun p => p.1 == u) ≤ ((w, e) :: l₂).countP (fun p => p.1 == u) := by
        rw [List.countP_cons]
        exact Nat.le_add_right _ _
      have h1 := inv.one_place
      unfold qcount at h1
      rw [hq, List.countP_append] at h1
      rw [List.countP_append]
      omega
    · show deliversCount u (tr ++ [BEvent.dropExpired now w]) ≤ s.delivered.count u
      rw [deliversCount_snoc]
      simp only [isDeliverOf]
      simp
      exact inv.dlv_le
    · intro now' c' h
      rcases hmem h with h | h
      · obtain ⟨t0, t1, hs2, hl⟩ := inv.dlv_sub now' c' h
        exact ⟨t0, t1, hup hs2, hl⟩
      · cases h
    · intro hd
      obtain ⟨now', c', h2⟩ := inv.dlvd_ev hd
      exact ⟨now', c', hup h2⟩
    · intro now' r h
      rcases hmem h with h | h
      · exact inv.res_dlvd now' r h
      · cases h
    · intro t0 t1 t0' t1' h1 h2
      rcases hmem h1 with ha | ha
      · rcases hmem h2 with hb | hb
        · exact inv.sub_uniq t0 t1 t0' t1' ha hb
        · cases hb
      · cases ha
  | @res now r w hd =>
    refine ⟨?_, ?_, ?_, ?_, ?_, ?_, ?_, ?_⟩
    · intro t0 t' h
      rcases hmem h with h | h
      · exact inv.sub_used t0 t' h
      · cases h
    · intro e' h
      obtain ⟨t0, t', hsub2, he⟩ := inv.q_sub e' h
      exact ⟨t0, t', hup hsub2, he⟩
    · exact inv.one_place
    · show deliversCount u (tr ++ [BEvent.res now r w]) ≤ s.delivered.count u
      rw [deliversCount_snoc]
      simp only [isDeliverOf]
      simp
      exact inv.dlv_le
    · intro now' c' h
      rcases hmem h with h | h
      · obtain ⟨t0, t1, hs2, hl⟩ := inv.dlv_sub now' c' h
        exact ⟨t0, t1, hup hs2, hl⟩
      · cases h
    · intro hdd
      obtain ⟨now', c', h2⟩ := inv.dlvd_ev hdd
      exact ⟨now', c', hup h2⟩
    · intro now' r' h
      rcases hmem h with h | h
      · exact inv.res_dlvd now' r' h
      · injection h with h1 h2 h3
        rw [h3]
        exact hd
    · intro t0 t1 t0' t1' h1 h2
      rcases hmem h1 with ha | ha
      · rcases hmem h2 with hb | hb
        · exact inv.sub_uniq t0 t1 t0' t1' ha hb
        · cases hb
      · cases ha

theorem BInv_reach {u : Nat} {tr : List BEvent} {s : BrokerState} (h : BReach tr s) :
    BInv u tr s := by
  induction h with
  | nil => exact BInv_init u
  | snoc hr hs ih => exact BInv_step ih hs

/-- C1: a submitted call is delivered to at most one callee, and if no
callee dequeues it within its (default-substituted) timeout, no RES for
that call ever occurs — the expired call is silently dropped and never
produces a result. -/
theorem C1_expired_call_never_delivers_result
    (tr : List BEvent) (s : BrokerState) (h : BReach tr s)
    (u t0 t : Nat) (hs : BEvent.submit t0 u t ∈ tr) :
    deliversCount u tr ≤ 1 ∧
    ((∀ now c, now ≤ t0 + effectiveCallTimeout t → BEvent.deliver now c u ∉ tr) →
      ∀ now r, BEvent.res now r u ∉ tr) := by
  have inv : BInv u tr s := BInv_reach h
  constructor
  · have h1 := inv.dlv_le
    have h2 := inv.one_place
    omega
  · intro hnd now r hres
    have hdm : u ∈ s.delivered := inv.res_dlvd now r hres
    obtain ⟨now', c, hdel⟩ := inv.dlvd_ev hdm
    obtain ⟨t0', t', hsub', hle⟩ := inv.dlv_sub now' c hdel
    obtain ⟨he0, he1⟩ := inv.sub_uniq t0' t' t0 t hsub' hs
    rw [he0, he1] at hle
    exact hnd now' c hle hdel

/-- Witness for C1: a concrete one-event trace submitting call 1 with
timeout 5, never dequeued, admits no RES. -/
theorem C1_expired_call_never_delivers_result_witness :
    deliversCount 1 [BEvent.submit 0 1 5] ≤ 1 ∧
    BEvent.res 3 2 1 ∉ [BEvent.submit 0 1 5] := by
  have h := C1_expired_call_never_delivers_result
    [BEvent.submit 0 1 5]
    ⟨[(1, 0 + effectiveCallTimeout 5)], [], [1]⟩
    (BReach.snoc BReach.nil (BStep.submit (by simp [initBroker])))
    1 0 5 (by simp)
  exact ⟨h.1, h.2 (by intro now c _ hmem; simp at hmem) 3 2⟩

theorem append_singleton_split {α : Type} {l pre suf : List α} {x r : α}
    (h : l ++ [x] = pre ++ r :: suf) :
    (pre = l ∧ r = x ∧ suf = []) ∨ ∃ suf', suf = suf' ++ [x] ∧ l = pre ++ r :: suf' := by
  rcases List.eq_nil_or_concat suf with hs | ⟨suf', y, hs⟩
  · subst hs
    obtain ⟨h1, h2⟩ := List.append_inj' h rfl
    have hx : r = x := by
      injection h2 with h3 _
      exact h3.symm
    exact Or.inl ⟨h1.symm, hx, rfl⟩
  · rw [List.concat_eq_append] at hs
    subst hs
    have h2 : l ++ [x] = (pre ++ r :: suf') ++ [y] := by
      rw [h]
      simp
    obtain ⟨h3, h4⟩ := List.append_inj' h2 rfl
    have hx : x = y := (List.cons.inj h4).1
    subst hx
    exact Or.inr ⟨suf', rfl, h3⟩

theorem ackNackCount_snoc (u : Nat) (out : List Frame) (f : Frame) :
    ackNackCount u (out ++ [f])
      = ackNackCount u out + (if isAckNackFor u f = true then 1 else 0) := by
  unfold ackNackCount
  rw [List.countP_append, List.countP_cons, List.countP_nil, Nat.zero_add]

theorem prec_snoc {u : Nat} {out : List Frame} {f : Frame}
    (hold : ∀ pre g suf, out = pre ++ g :: suf → refersTo u g →
      ∃ a ∈ pre, isAckNackFor u a = true)
    (hnew : refersTo u f → ∃ a ∈ out, isAckNackFor u a = true) :
    ∀ pre g suf, out ++ [f] = pre ++ g :: suf → refersTo u g →
      ∃ a ∈ pre, isAckNackFor u a = true := by
  intro pre g suf heq href
  rcases append_singleton_split heq with ⟨hp, hr, -⟩ | ⟨suf', -, hl⟩
  · subst hp
    rw [hr] at href
    exact hnew href
  · exact hold pre g suf' hl href

theorem CInv_init (u : Nat) : CInv u [] initConn := by
  refine ⟨?_, ?_, ?_, ?_, ?_, ?_, ?_⟩
  · exact fun k ok h => absurd h (List.not_mem_nil _)
  · intro h; cases h
  · intro h; cases h
  · intro _; rfl
  · intro h; cases h
  · intro h; cases h
  · intro pre f suf h href
    exact absurd h (by simp [initConn])

theorem CInv_step {u : Nat} {tr : List CEvent} {s : ConnState} {ev : CEvent}
    {s' : ConnState} (inv : CInv u tr s) (hst : CStep s ev s') :
    CInv u (tr ++ [ev]) s' := by
  have hmem : ∀ {x : CEvent}, x ∈ tr ++ [ev] → x ∈ tr ∨ x = ev := by
    intro x hx
    rcases List.mem_append.mp hx with h | h
    · exact Or.inl h
    · exact Or.inr (List.mem_singleton.mp h)
  have hup : ∀ {x : CEvent}, x ∈ tr → x ∈ tr ++ [ev] :=
    fun h => List.mem_append_left _ h
  have hself : ev ∈ tr ++ [ev] :=
    List.mem_append_right _ (List.mem_singleton.mpr rfl)
  cases hst with
  | @inbound k w ok hw =>
    rcases eq_or_ne w u with rfl | hwu
    · refine ⟨?_, ?_, ?_, ?_, ?_, ?_, ?_⟩
      · intro k' ok' _
        exact List.mem_cons_self _ _
      · intro _
        exact ⟨k, ok, hself⟩
      · intro _
        show ackNackCount w (s.out ++ [if ok then Frame.ack w else Frame.nack w]) = 1
        rw [ackNackCount_snoc, inv.cnt_unseen hw]
        have h1 : isAckNackFor w (if ok then Frame.ack w else Frame.nack w) = true := by
          cases ok <;> simp [isAckNackFor]
        rw [h1]
        rfl
      · intro hns
        exact absurd (List.mem_cons_self _ _) hns
      · intro _
        exact List.mem_cons_self _ _
      · intro _
        exact List.mem_cons_self _ _
      · show ∀ pre g suf,
            s.out ++ [if ok then Frame.ack w else Frame.nack w] = pre ++ g :: suf →
            refersTo w g → ∃ a ∈ pre, isAckNackFor w a = true
        apply prec_snoc inv.prec
        intro href
        rcases href with h | h <;> (cases ok <;> cases h)
    · refine ⟨?_, ?_, ?_, ?_, ?_, ?_, ?_⟩
      · intro k' ok' h
        rcases hmem h with h | h
        · exact List.mem_cons_of_mem _ (inv.in_seen k' ok' h)
        · injection h with h1 h2 h3
          exact absurd h2.symm hwu
      · intro hs2
        rcases List.mem_cons.mp hs2 with h | h
        · exact absurd h.symm hwu
        · obtain ⟨k', ok', h2⟩ := inv.seen_in h
          exact ⟨k', ok', hup h2⟩
      · intro hs2
        have hu : u ∈ s.seen := by
          rcases List.mem_cons.mp hs2 with h | h
          · exact absurd h.symm hwu
          · exact h
        show ackNackCount u (s.out ++ [if ok then Frame.ack w else Frame.nack w]) = 1
        rw [ackNackCount_snoc, inv.cnt_seen hu]
        have h1 : isAckNackFor u (if ok then Frame.ack w else Frame.nack w) = false := by
          cases ok <;> simp [isAckNackFor, hwu]
        rw [h1]
        rfl
      · intro hns
        have hu : u ∉ s.seen := fun h => hns (List.mem_cons_of_mem _ h)
        show ackNackCount u (s.out ++ [if ok then Frame.ack w else Frame.nack w]) = 0
        rw [ackNackCount_snoc, inv.cnt_unseen hu]
        have h1 : isAckNackFor u (if ok then Frame.ack w else Frame.nack w) = false := by
          cases ok <;> simp [isAckNackFor, hwu]
        rw [h1]
        rfl
      · show u ∈ (if k = MKind.call ∧ ok = true then w :: s.pending else s.pending) →
            u ∈ w :: s.seen
        intro hp
        have hu : u ∈ s.pending := by
          by_cases hk : k = MKind.call ∧ ok = true
          · rw [if_pos hk] at hp
            rcases List.mem_cons.mp hp with h | h
            · exact absurd h.symm hwu
            · exact h
          · rw [if_neg hk] at hp
            exact hp
        exact List.mem_cons_of_mem _ (inv.pend_seen hu)
      · show u ∈ (if k = MKind.pub ∧ ok = true then w :: s.published else s.published) →
            u ∈ w :: s.seen
        intro hp
        have hu : u ∈ s.published := by
          by_cases hk : k = MKind.pub ∧ ok = true
          · rw [if_pos hk] at hp
            rcases List.mem_cons.mp hp with h | h
            · exact absurd h.symm hwu
            · exact h
          · rw [if_neg hk] at hp
            exact hp
        exact List.mem_cons_of_mem _ (inv.pub_seen hu)
      · show ∀ pre g suf,
            s.out ++ [if ok then Frame.ack w else Frame.nack w] = pre ++ g :: suf →
            refersTo u g → ∃ a ∈ pre, isAckNackFor u a = true
        apply prec_snoc inv.prec
        intro href
        rcases href with h | h <;> (cases ok <;> cases h)
  | @pumpRes w hw =>
    refine ⟨?_, ?_, ?_, ?_, ?_, ?_, ?_⟩
    · intro k' ok' h
      rcases hmem h with h | h
      · exact inv.in_seen k' ok' h
      · cases h
    · intro hs2
      obtain ⟨k', ok', h2⟩ := inv.seen_in hs2
      exact ⟨k', ok', hup h2⟩
    · intro hs2
      show ackNackCount u (s.out ++ [Frame.res w]) = 1
      rw [ackNackCount_snoc, inv.cnt_seen hs2]
      rfl
    · intro hns
      show ackNackCount u (s.out ++ [Frame.res w]) = 0
      rw [ackNackCount_snoc, inv.cnt_unseen hns]
      rfl
    · exact inv.pend_seen
    · exact inv.pub_seen
    · show ∀ pre g suf, s.out ++ [Frame.res w] = pre ++ g :: suf →
          refersTo u g → ∃ a ∈ pre, isAckNackFor u a = true
      apply prec_snoc inv.prec
      intro href
      rcases href with h | h
      · have hwu : w = u := by injection h
        subst hwu
        have h1 : ackNackCount w s.out = 1 :=
          inv.cnt_seen (inv.pend_seen hw)
        have h2 : 0 < s.out.countP (isAckNackFor w) := by
          unfold ackNackCount at h1
          omega
        exact List.countP_pos_iff.mp h2
      · cases h
  | @pumpEvnt w hw =>
    refine ⟨?_, ?_, ?_, ?_, ?_, ?_, ?_⟩
    · intro k' ok' h
      rcases hmem h with h | h
      · exact inv.in_seen k' ok' h
      · cases h
    · intro hs2
      obtain ⟨k', ok', h2⟩ := inv.seen_in hs2
      exact ⟨k', ok', hup h2⟩
    · intro hs2
      show ackNackCount u (s.out ++ [Frame.evnt w]) = 1
      rw [ackNackCount_snoc, inv.cnt_seen hs2]
      rfl
    · intro hns
      show ackNackCount u (s.out ++ [Frame.evnt w]) = 0
      rw [ackNackCount_snoc, inv.cnt_unseen hns]
      rfl
    · exact inv.pend_seen
    · exact inv.pub_seen
    · show ∀ pre g suf, s.out ++ [Frame.evnt w] = pre ++ g :: suf →
          refersTo u g → ∃ a ∈ pre, isAckNackFor u a = true
      apply prec_snoc inv.prec
      intro href
      rcases href with h | h
      · cases h
      · have hwu : w = u := by injection h
        subst hwu
        have h1 : ackNackCount w s.out = 1 :=
          inv.cnt_seen (inv.pub_seen hw)
        have h2 : 0 < s.out.countP (isAckNackFor w) := by
          unfold ackNackCount at h1
          omega
        exact List.countP_pos_iff.mp h2

theorem CInv_reach {u : Nat} {tr : List CEvent} {s : ConnState} (h : CReach tr s) :
    CInv u tr s := by
  induction h with
  | nil => exact CInv_init u
  | snoc hr hs ih => exact CInv_step ih hs

/-- C2: for every inbound CALL, PUB, SUB or UNSB processed by the
connection engine, exactly one ACK or NACK referencing its uuid appears in
the connection's outbound stream, and it precedes any later outbound
message (RES or EVNT) referring to the same uuid. -/
theorem C2_ack_nack_once_precedes
    (tr : List CEvent) (s : ConnState) (h : CReach tr s)
    (k : MKind) (u : Nat) (ok : Bool) (hin : CEvent.inbound k u ok ∈ tr) :
    ackNackCount u s.out = 1 ∧
    ∀ pre f suf, s.out = pre ++ f :: suf → refersTo u f →
      ∃ a ∈ pre, isAckNackFor u a = true := by
  have inv : CInv u tr s := CInv_reach h
  exact ⟨inv.cnt_seen (inv.in_seen k ok hin), inv.prec⟩

/-- Witness for C2: a concrete trace processing one inbound CALL with uuid
7 has exactly one ACK/NACK for it on the outbound stream. -/
theorem C2_ack_nack_once_precedes_witness :
    ackNackCount 7 [Frame.ack 7] = 1 := by
  have h := C2_ack_nack_once_precedes
    [CEvent.inbound MKind.call 7 true]
    ⟨[Frame.ack 7], [7], [], [7]⟩
    (CReach.snoc CReach.nil (CStep.inbound (by simp [initConn])))
    MKind.call 7 true (by simp)
  exact h.1

end Juggler
